import Mathlib

/-!
Shallow embedding of `src/event.hpp` (poskadesign/events, PD_EVENT_VER 8).

The C++ `Event<Args...>` class owns a `std::unordered_map<uint64_t,
std::function<void(Args...)>> subscribers` and exposes `bind`, `unbind`,
`operator+=` (lambda subscription), `hasSubscriber` and `fire`.

Modelling decisions, each tied to the source:
* `uint64_t` values (`Address` / `Identifier`) are `Nat` reduced modulo
  `2 ^ 64` wherever the C++ performs 64-bit arithmetic (`_identify`).
* The `unordered_map` is an association list `List (Nat × HandlerV)` whose
  keys are unique in every state reachable through the API (the C++ map
  enforces this structurally).  `std::unordered_map::insert` does not
  overwrite an existing key, so `mapInsert` is a no-op when the key is
  present; `erase(find(a))` removes the unique entry with key `a`.
* A stored handler is either `std::bind(member, instance, _1, ...)` —
  semantically determined by the member address and the instance address,
  modelled as `HandlerV.bound member inst` — or a lambda subscribed through
  `operator+=`, modelled as `HandlerV.lam code` (an opaque behaviour code).
* An event's argument tuple (arity 0–4) is modelled as a single value of
  type `List Nat`: `fire` hands the identical tuple to every subscriber.
* Invoking a handler has no effect on the event itself (handlers are
  opaque values here); `fire` therefore returns the post-state of the
  loop together with the invocation trace: the list of (handler, argument
  tuple) calls it performed, in iteration order.
-/

/-- The modulus of C++ `uint64_t` arithmetic. -/
def W64 : Nat := 2 ^ 64

/-- `enum class EventFlag { DEFAULT = 0, ONLY_UNIQUE = 1 }` from `event.hpp`. -/
inductive EventFlag where
  | DEFAULT
  | ONLY_UNIQUE
deriving DecidableEq, Repr

/-- Semantic value of a stored `Handler`: either a bound member call
`std::bind(member, instance, ...)`, identified by the two addresses, or a
lambda subscribed via `operator+=`, identified by an opaque behaviour code. -/
inductive HandlerV where
  | bound (member inst : Nat)
  | lam (code : Nat)
deriving DecidableEq, Repr

/-- `Event::_identify(_class, _member)`: the two pointers are punned to
`uint64_t` through the `AddressCast` union and combined as
`address(_class) * 10 + address(_member)` in `uint64_t` arithmetic.
Inputs are arbitrary naturals modelling the punned 64-bit address values,
so each operation is reduced modulo `2 ^ 64` exactly as `uint64_t` does. -/
def _identify (c m : Nat) : Nat :=
  (c % W64 * 10 % W64 + m % W64) % W64

/-- The state of a C++ `Event` object: its `subscribers` container. -/
structure Event where
  subscribers : List (Nat × HandlerV)
deriving DecidableEq, Repr

/-- A freshly constructed `Event` has an empty `subscribers` map. -/
def Event.empty : Event := ⟨[]⟩

/-- `subscribers.find(a) != subscribers.end()` on the association list. -/
def containsKey (s : List (Nat × HandlerV)) (a : Nat) : Bool :=
  s.any (fun p => p.1 == a)

/-- First-match lookup, the value `find(a)` designates when present. -/
def lookupKey (s : List (Nat × HandlerV)) (a : Nat) : Option HandlerV :=
  match s with
  | [] => none
  | p :: rest => if p.1 == a then some p.2 else lookupKey rest a

/-- `Event::hasSubscriber(a)`: `subscribers.find(a) != subscribers.end()`. -/
def Event.hasSubscriber (ev : Event) (a : Nat) : Bool :=
  containsKey ev.subscribers a

/-- `std::unordered_map::insert(make_pair(a, h))`: inserts only when the
key is absent; an existing entry with key `a` is left untouched. -/
def mapInsert (s : List (Nat × HandlerV)) (a : Nat) (h : HandlerV) :
    List (Nat × HandlerV) :=
  if containsKey s a then s else s ++ [(a, h)]

/-- `subscribers.erase(it)` where `it = subscribers.find(a)`: removes the
(first, with unique keys the only) entry with key `a`. -/
def mapErase (s : List (Nat × HandlerV)) (a : Nat) : List (Nat × HandlerV) :=
  match s with
  | [] => []
  | p :: rest => if p.1 == a then rest else p :: mapErase rest a

/-- `Event::_addToList(a, h, flag)`: returns without touching the map when
`flag == ONLY_UNIQUE && hasSubscriber(a)`; otherwise performs the map
`insert`, which itself silently ignores a duplicate key. -/
def Event._addToList (ev : Event) (a : Nat) (h : HandlerV) (flag : EventFlag) :
    Event :=
  if flag == EventFlag.ONLY_UNIQUE && ev.hasSubscriber a then ev
  else ⟨mapInsert ev.subscribers a h⟩

/-- `Event::_removeFromList(a)`: `find`, erase when found, silent no-op
(the empty `else` branch) when absent. -/
def Event._removeFromList (ev : Event) (a : Nat) : Event :=
  if ev.hasSubscriber a then ⟨mapErase ev.subscribers a⟩ else ev

/-- The `Event::bind(member, instance, flag)` overload family: stores the
bound call `std::bind(member, instance, ...)` under the identity
`_identify(instance, member)`. -/
def Event.bindMember (ev : Event) (member inst : Nat) (flag : EventFlag) :
    Event :=
  ev._addToList (_identify inst member) (HandlerV.bound member inst) flag

/-- The `Event::unbind(member, instance)` overload family: removes the
entry at `_identify(instance, member)`. -/
def Event.unbindMember (ev : Event) (member inst : Nat) : Event :=
  ev._removeFromList (_identify inst member)

/-- `Event::operator+=(lambda)`: subscribes a lambda under the identity
`_identify(&lambda, 0)`, where `&lambda` is the address of the local
parameter slot (`slot` here) and the member component is the literal 0. -/
def Event.subscribeLambda (ev : Event) (code slot : Nat) : Event :=
  ev._addToList (_identify slot 0) (HandlerV.lam code) EventFlag.DEFAULT

/-- The body of `Event::fire`: `for (auto subscriber : subscribers)
subscriber.second(e...);`.  Each iteration copies one entry and invokes
its handler with the argument tuple `e`; the invocation (an opaque
handler value applied to `e`) is recorded in the trace and leaves the
event state `ev` untouched. -/
def fireAux (ev : Event) (pending : List (Nat × HandlerV)) (e : List Nat)
    (acc : List (HandlerV × List Nat)) : Event × List (HandlerV × List Nat) :=
  match pending with
  | [] => (ev, acc)
  | p :: rest => fireAux ev rest e (acc ++ [(p.2, e)])

/-- `Event::fire(e...)` (also reachable as `operator()`): iterates over
`subscribers`, invoking every handler with the tuple `e`.  Returns the
event state after the loop and the invocation trace. -/
def Event.fire (ev : Event) (e : List Nat) : Event × List (HandlerV × List Nat) :=
  fireAux ev ev.subscribers e []

/-- The invocation trace of one `fire` call. -/
def Event.fireTrace (ev : Event) (e : List Nat) : List (HandlerV × List Nat) :=
  (ev.fire e).2

/-- `static constexpr auto _MAX_EVENT_ARGS = 4`. -/
def _MAX_EVENT_ARGS : Nat := 4

/-- The condition of `static_assert(sizeof...(Args) <= _MAX_EVENT_ARGS,
"Too many arguments")`: whether an instantiation at arity `n` passes the
compile-time arity check. -/
def arityCheck (n : Nat) : Bool :=
  n ≤ _MAX_EVENT_ARGS

/-- One client-visible operation on an `Event` object. -/
inductive Op where
  | bindOp (member inst : Nat) (flag : EventFlag)
  | unbindOp (member inst : Nat)
  | subOp (code slot : Nat)
  | fireOp (e : List Nat)
deriving DecidableEq, Repr

/-- The state transition of one operation (`fire` returns the loop's
post-state). -/
def stepState (ev : Event) (op : Op) : Event :=
  match op with
  | .bindOp m r f => ev.bindMember m r f
  | .unbindOp m r => ev.unbindMember m r
  | .subOp c s => ev.subscribeLambda c s
  | .fireOp e => (ev.fire e).1

/-- Runs a sequence of operations from a state. -/
def runOps (ev : Event) (ops : List Op) : Event :=
  ops.foldl stepState ev

/-- Keys of the association list are pairwise distinct — the structural
invariant `std::unordered_map` maintains for every representable state. -/
def KeysUnique (s : List (Nat × HandlerV)) : Prop :=
  s.Pairwise (fun p q => p.1 ≠ q.1)

/-- Number of entries with key `a`. -/
def keyCount (s : List (Nat × HandlerV)) (a : Nat) : Nat :=
  s.countP (fun p => p.1 == a)

/-! ### Basic lemmas about the association-list map -/

theorem containsKey_nil (a : Nat) : containsKey [] a = false := rfl

theorem containsKey_cons (p : Nat × HandlerV) (rest : List (Nat × HandlerV))
    (a : Nat) : containsKey (p :: rest) a = ((p.1 == a) || containsKey rest a) := by
  simp [containsKey]

theorem containsKey_append (s t : List (Nat × HandlerV)) (a : Nat) :
    containsKey (s ++ t) a = (containsKey s a || containsKey t a) := by
  simp [containsKey]

theorem lookupKey_isSome (s : List (Nat × HandlerV)) (a : Nat) :
    containsKey s a = (lookupKey s a).isSome := by
  induction s with
  | nil => rfl
  | cons p rest ih =>
    rw [containsKey_cons]
    by_cases hp : p.1 = a
    · simp [lookupKey, hp]
    · simp [lookupKey, hp, ih]

theorem lookupKey_append_left (s t : List (Nat × HandlerV)) (a : Nat)
    (h : HandlerV) (hs : lookupKey s a = some h) :
    lookupKey (s ++ t) a = some h := by
  induction s with
  | nil => simp [lookupKey] at hs
  | cons p rest ih =>
    by_cases hp : p.1 = a
    · simpa [lookupKey, hp] using hs
    · rw [List.cons_append, lookupKey, if_neg (by simpa using hp)]
      exact ih (by simpa [lookupKey, hp] using hs)

theorem lookupKey_append_of_none (s t : List (Nat × HandlerV)) (a : Nat)
    (hs : lookupKey s a = none) :
    lookupKey (s ++ t) a = lookupKey t a := by
  induction s with
  | nil => rfl
  | cons p rest ih =>
    by_cases hp : p.1 = a
    · simp [lookupKey, hp] at hs
    · rw [List.cons_append, lookupKey, if_neg (by simpa using hp)]
      exact ih (by simpa [lookupKey, hp] using hs)

theorem lookupKey_mapInsert_of_some (s : List (Nat × HandlerV)) (a a' : Nat)
    (h h' : HandlerV) (hs : lookupKey s a = some h) :
    lookupKey (mapInsert s a' h') a = some h := by
  unfold mapInsert
  by_cases hc : containsKey s a' = true
  · simpa [hc] using hs
  · rw [if_neg hc]
    exact lookupKey_append_left s [(a', h')] a h hs

theorem lookupKey_mapInsert_self (s : List (Nat × HandlerV)) (a : Nat)
    (h : HandlerV) (hs : lookupKey s a = none) :
    lookupKey (mapInsert s a h) a = some h := by
  have hc : containsKey s a = false := by
    rw [lookupKey_isSome, hs]; rfl
  unfold mapInsert
  rw [if_neg (by simp [hc])]
  rw [lookupKey_append_of_none s [(a, h)] a hs]
  simp [lookupKey]

theorem lookupKey_mapErase_of_ne (s : List (Nat × HandlerV)) (a a' : Nat)
    (hne : a ≠ a') : lookupKey (mapErase s a') a = lookupKey s a := by
  induction s with
  | nil => rfl
  | cons p rest ih =>
    by_cases hp : p.1 = a'
    · rw [mapErase, if_pos (by simpa using hp), lookupKey,
        if_neg (by simp [hp]; omega)]
    · rw [mapErase, if_neg (by simpa using hp), lookupKey, lookupKey]
      by_cases hq : p.1 = a
      · simp [hq]
      · simp [hq, ih]

theorem mapErase_sublist (s : List (Nat × HandlerV)) (a : Nat) :
    (mapErase s a).Sublist s := by
  induction s with
  | nil => simp [mapErase]
  | cons p rest ih =>
    rw [mapErase]
    by_cases hp : p.1 = a
    · rw [if_pos (by simpa using hp)]
      exact List.sublist_cons_self p rest
    · rw [if_neg (by simpa using hp)]
      exact ih.cons₂ p

theorem keysUnique_mapErase (s : List (Nat × HandlerV)) (a : Nat)
    (hu : KeysUnique s) : KeysUnique (mapErase s a) :=
  hu.sublist (mapErase_sublist s a)

theorem containsKey_of_mem (s : List (Nat × HandlerV)) (p : Nat × HandlerV)
    (hp : p ∈ s) : containsKey s p.1 = true := by
  simp only [containsKey, List.any_eq_true]
  exact ⟨p, hp, by simp⟩

theorem keysUnique_mapInsert (s : List (Nat × HandlerV)) (a : Nat)
    (h : HandlerV) (hu : KeysUnique s) : KeysUnique (mapInsert s a h) := by
  unfold mapInsert
  by_cases hc : containsKey s a = true
  · simpa [hc] using hu
  · rw [if_neg hc]
    refine List.pairwise_append.mpr ⟨hu, List.pairwise_singleton _ _, ?_⟩
    intro p hp q hq
    simp only [List.mem_singleton] at hq
    subst hq
    intro hpa
    have hmem := containsKey_of_mem s p hp
    rw [hpa] at hmem
    exact hc hmem

theorem containsKey_mapErase_self (s : List (Nat × HandlerV)) (a : Nat)
    (hu : KeysUnique s) : containsKey (mapErase s a) a = false := by
  induction s with
  | nil => rfl
  | cons p rest ih =>
    rcases List.pairwise_cons.mp hu with ⟨hhead, htail⟩
    rw [mapErase]
    by_cases hp : p.1 = a
    · rw [if_pos (by simpa using hp)]
      rw [lookupKey_isSome]
      cases hl : lookupKey rest a with
      | none => rfl
      | some h =>
        exfalso
        have : containsKey rest a = true := by rw [lookupKey_isSome, hl]; rfl
        simp only [containsKey, List.any_eq_true] at this
        rcases this with ⟨q, hq, hqa⟩
        exact hhead q hq (by simp at hqa; omega)
    · rw [if_neg (by simpa using hp), containsKey_cons]
      simp [hp, ih htail]

theorem keyCount_eq_zero (s : List (Nat × HandlerV)) (a : Nat)
    (hc : containsKey s a = false) : keyCount s a = 0 := by
  rw [keyCount, List.countP_eq_zero]
  intro p hp hpa
  have hmem := containsKey_of_mem s p hp
  rw [show p.1 = a from by simpa using hpa] at hmem
  rw [hmem] at hc
  simp at hc

theorem keyCount_eq_one (s : List (Nat × HandlerV)) (a : Nat)
    (hu : KeysUnique s) (hc : containsKey s a = true) : keyCount s a = 1 := by
  induction s with
  | nil => simp [containsKey] at hc
  | cons p rest ih =>
    rcases List.pairwise_cons.mp hu with ⟨hhead, htail⟩
    rw [containsKey_cons] at hc
    by_cases hp : p.1 = a
    · rw [keyCount, List.countP_cons_of_pos _ _ (by simpa using hp)]
      have hrest : containsKey rest a = false := by
        cases hl : containsKey rest a with
        | false => rfl
        | true =>
          exfalso
          simp only [containsKey, List.any_eq_true] at hl
          rcases hl with ⟨q, hq, hqa⟩
          exact hhead q hq (by simp at hqa; omega)
      have := keyCount_eq_zero rest a hrest
      rw [keyCount] at this
      omega
    · rw [keyCount, List.countP_cons_of_neg _ _ (by simpa using hp)]
      have hc' : containsKey rest a = true := by
        rcases Bool.or_eq_true_iff.mp hc with h1 | h1
        · exact absurd (by simpa using h1) hp
        · exact h1
      exact ih htail hc'

/-! ### Behaviour of the Event operations -/

theorem addToList_eq (ev : Event) (a : Nat) (h : HandlerV) (f : EventFlag) :
    ev._addToList a h f =
      if ev.hasSubscriber a then ev else ⟨ev.subscribers ++ [(a, h)]⟩ := by
  cases hc : ev.hasSubscriber a
  · have hc' : containsKey ev.subscribers a = false := hc
    rw [if_neg (by simp [hc]), Event._addToList,
      if_neg (by simp [hc]), mapInsert, if_neg (by simp [hc'])]
  · have hc' : containsKey ev.subscribers a = true := hc
    rw [if_pos (by simp)]
    cases f
    · have hf : (EventFlag.DEFAULT == EventFlag.ONLY_UNIQUE) = false := rfl
      rw [Event._addToList, hf, Bool.false_and, if_neg (by simp),
        mapInsert, if_pos (by simp [hc'])]
    · rw [Event._addToList, if_pos (by simp [hc])]

theorem hasSubscriber_addToList_self (ev : Event) (a : Nat) (h : HandlerV)
    (f : EventFlag) : (ev._addToList a h f).hasSubscriber a = true := by
  rw [addToList_eq]
  by_cases hc : ev.hasSubscriber a = true
  · simp [hc]
  · rw [if_neg (by simpa using hc), Event.hasSubscriber, containsKey_append]
    simp [containsKey]

theorem hasSubscriber_isSome (ev : Event) (a : Nat) :
    ev.hasSubscriber a = (lookupKey ev.subscribers a).isSome :=
  lookupKey_isSome ev.subscribers a

theorem keysUnique_addToList (ev : Event) (a : Nat) (h : HandlerV)
    (f : EventFlag) (hu : KeysUnique ev.subscribers) :
    KeysUnique (ev._addToList a h f).subscribers := by
  rw [Event._addToList]
  by_cases hc : (f == EventFlag.ONLY_UNIQUE && ev.hasSubscriber a) = true
  · simpa [hc]
  · rw [if_neg hc]
    exact keysUnique_mapInsert ev.subscribers a h hu

theorem keysUnique_removeFromList (ev : Event) (a : Nat)
    (hu : KeysUnique ev.subscribers) :
    KeysUnique (ev._removeFromList a).subscribers := by
  rw [Event._removeFromList]
  by_cases hc : ev.hasSubscriber a = true
  · rw [if_pos hc]
    exact keysUnique_mapErase ev.subscribers a hu
  · rw [if_neg hc]
    exact hu

theorem fireAux_fst (ev : Event) (pending : List (Nat × HandlerV))
    (e : List Nat) (acc : List (HandlerV × List Nat)) :
    (fireAux ev pending e acc).1 = ev := by
  induction pending generalizing acc with
  | nil => rfl
  | cons p rest ih => rw [fireAux]; exact ih _

theorem fireAux_snd (ev : Event) (pending : List (Nat × HandlerV))
    (e : List Nat) (acc : List (HandlerV × List Nat)) :
    (fireAux ev pending e acc).2 = acc ++ pending.map (fun p => (p.2, e)) := by
  induction pending generalizing acc with
  | nil => simp [fireAux]
  | cons p rest ih => rw [fireAux, ih]; simp

theorem fireTrace_eq_map (ev : Event) (e : List Nat) :
    ev.fireTrace e = ev.subscribers.map (fun p => (p.2, e)) := by
  rw [Event.fireTrace, Event.fire, fireAux_snd]
  simp

/-! ### Claim theorems (first batch) -/

/-- C3: for every event state, identity and handler, registering under
`EventFlag.DEFAULT` and under `EventFlag.ONLY_UNIQUE` produce identical
resulting subscriber tables — the two flags are observably equivalent, both
silently ignoring an insert whose identity is already present.  The same
equivalence holds through the full `bind` path. -/
theorem c3_flags_equivalent (ev : Event) (a : Nat) (h : HandlerV)
    (member inst : Nat) :
    ev._addToList a h EventFlag.DEFAULT =
      ev._addToList a h EventFlag.ONLY_UNIQUE ∧
    ev.bindMember member inst EventFlag.DEFAULT =
      ev.bindMember member inst EventFlag.ONLY_UNIQUE := by
  constructor
  · rw [addToList_eq, addToList_eq]
  · rw [Event.bindMember, Event.bindMember, addToList_eq, addToList_eq]

/-- C4: identity derivation is a deterministic pure function of the
receiver address and the member address: `_identify r m` equals
`(r * 10 + m) % 2 ^ 64` (receiver address times the fixed multiplier 10
plus member address, in unsigned 64-bit arithmetic), and equal input pairs
always yield equal identities. -/
theorem c4_identify_formula (r m r2 m2 : Nat) (hr : r = r2) (hm : m = m2) :
    _identify r m = (r * 10 + m) % 2 ^ 64 ∧ _identify r m = _identify r2 m2 := by
  subst hr
  subst hm
  refine ⟨?_, rfl⟩
  rw [_identify, show W64 = 2 ^ 64 from rfl, Nat.mod_mul_mod]
  conv_rhs => rw [Nat.add_mod]

theorem c4_identify_formula_witness :
    _identify 3 7 = (3 * 10 + 7) % 2 ^ 64 ∧ _identify 3 7 = _identify 3 7 :=
  c4_identify_formula 3 7 3 7 rfl rfl

/-- C6: `unbind` on a (member, receiver) pair whose derived identity is not
in the subscriber table is a silent no-op: the event (hence the table and
its size) is left unchanged and no error arises. -/
theorem c6_unbind_absent_noop (ev : Event) (member inst : Nat)
    (habs : ev.hasSubscriber (_identify inst member) = false) :
    ev.unbindMember member inst = ev ∧
    (ev.unbindMember member inst).subscribers.length =
      ev.subscribers.length := by
  have heq : ev.unbindMember member inst = ev := by
    rw [Event.unbindMember, Event._removeFromList, if_neg (by simp [habs])]
  exact ⟨heq, by rw [heq]⟩

theorem c6_unbind_absent_noop_witness :
    Event.empty.hasSubscriber (_identify 2 1) = false ∧
    Event.empty.unbindMember 1 2 = Event.empty :=
  ⟨by decide, (c6_unbind_absent_noop Event.empty 1 2 (by decide)).1⟩

/-- C8: calling `fire` on an event whose subscriber table is empty performs
no handler invocation (empty trace) and returns normally with the state
unchanged. -/
theorem c8_fire_empty_noop (ev : Event) (e : List Nat)
    (hempty : ev.subscribers = []) :
    ev.fireTrace e = [] ∧ ev.fire e = (ev, []) := by
  constructor
  · rw [Event.fireTrace, Event.fire, hempty]
    rfl
  · rw [Event.fire, hempty]
    rfl

theorem c8_fire_empty_noop_witness :
    Event.empty.fireTrace [3] = [] ∧
    Event.empty.fire [3] = (Event.empty, []) :=
  c8_fire_empty_noop Event.empty [3] rfl

/-- C9: the compile-time arity check of `Event` (the `static_assert`
comparing the parameter-pack size with `_MAX_EVENT_ARGS = 4`) accepts every
arity up to 4 and rejects every arity strictly greater than 4. -/
theorem c9_arity_bound (n : Nat) :
    (n ≤ 4 → arityCheck n = true) ∧ (4 < n → arityCheck n = false) := by
  constructor <;> intro hn <;> simp [arityCheck, _MAX_EVENT_ARGS] <;> omega

theorem c9_arity_bound_witness :
    arityCheck 4 = true ∧ arityCheck 5 = false :=
  ⟨(c9_arity_bound 4).1 (by decide), (c9_arity_bound 5).2 (by decide)⟩

/-- C10: dispatch does not modify the subscriber table: the event state
after the `fire` loop is the state before it (handlers are opaque values
here, matching the claim's proviso that no invoked handler mutates the
event). -/
theorem c10_fire_frame (ev : Event) (e : List Nat) : (ev.fire e).1 = ev := by
  rw [Event.fire]
  exact fireAux_fst ev ev.subscribers e []

/-- C2: binding the same (member, receiver) pair twice under any
combination of flags leaves exactly one live subscription for its derived
identity, the second bind is a complete no-op (so it cannot replace the
handler installed by the first), and a single subsequent `unbind` of the
pair removes the subscription entirely.  `KeysUnique` is the structural
invariant `std::unordered_map` guarantees for every representable state. -/
theorem c2_double_bind (ev : Event) (member inst : Nat) (f1 f2 : EventFlag)
    (hu : KeysUnique ev.subscribers) :
    keyCount ((ev.bindMember member inst f1).bindMember member inst
        f2).subscribers (_identify inst member) = 1 ∧
    (ev.bindMember member inst f1).bindMember member inst f2 =
      ev.bindMember member inst f1 ∧
    (((ev.bindMember member inst f1).bindMember member inst
        f2).unbindMember member inst).hasSubscriber
      (_identify inst member) = false := by
  have h1 : (ev.bindMember member inst f1).hasSubscriber
      (_identify inst member) = true := by
    rw [Event.bindMember]
    exact hasSubscriber_addToList_self ev _ _ f1
  have hu1 : KeysUnique (ev.bindMember member inst f1).subscribers := by
    rw [Event.bindMember]
    exact keysUnique_addToList ev _ _ f1 hu
  have hnoop : (ev.bindMember member inst f1).bindMember member inst f2 =
      ev.bindMember member inst f1 := by
    conv_lhs => rw [Event.bindMember, addToList_eq, if_pos h1]
  refine ⟨?_, hnoop, ?_⟩
  · rw [hnoop]
    exact keyCount_eq_one _ _ hu1 h1
  · rw [hnoop, Event.unbindMember, Event._removeFromList, if_pos h1,
      Event.hasSubscriber]
    exact containsKey_mapErase_self _ _ hu1

theorem c2_double_bind_witness :
    keyCount (((Event.empty.bindMember 1 2 EventFlag.DEFAULT).bindMember 1 2
        EventFlag.ONLY_UNIQUE)).subscribers (_identify 2 1) = 1 ∧
    (Event.empty.bindMember 1 2 EventFlag.DEFAULT).bindMember 1 2
        EventFlag.ONLY_UNIQUE =
      Event.empty.bindMember 1 2 EventFlag.DEFAULT ∧
    (((Event.empty.bindMember 1 2 EventFlag.DEFAULT).bindMember 1 2
        EventFlag.ONLY_UNIQUE).unbindMember 1 2).hasSubscriber
      (_identify 2 1) = false :=
  c2_double_bind Event.empty 1 2 EventFlag.DEFAULT EventFlag.ONLY_UNIQUE
    List.Pairwise.nil

/-- C7: `hasSubscriber` returns true immediately after a `bind` or a
lambda subscription registering the queried identity, and false
immediately after an `unbind` of that identity; the query itself is a pure
function of the event state (it is `const` in the source and a plain
function here), so it has no side effects. -/
theorem c7_hasSubscriber_tracks (ev : Event) (member inst code slot : Nat)
    (f : EventFlag) (hu : KeysUnique ev.subscribers) :
    (ev.bindMember member inst f).hasSubscriber (_identify inst member) =
      true ∧
    (ev.subscribeLambda code slot).hasSubscriber (_identify slot 0) = true ∧
    (ev.unbindMember member inst).hasSubscriber (_identify inst member) =
      false := by
  refine ⟨?_, ?_, ?_⟩
  · rw [Event.bindMember]
    exact hasSubscriber_addToList_self ev _ _ f
  · rw [Event.subscribeLambda]
    exact hasSubscriber_addToList_self ev _ _ _
  · cases hc : ev.hasSubscriber (_identify inst member)
    · rw [Event.unbindMember, Event._removeFromList, if_neg (by simp [hc])]
      exact hc
    · rw [Event.unbindMember, Event._removeFromList, if_pos hc,
        Event.hasSubscriber]
      exact containsKey_mapErase_self _ _ hu

theorem c7_hasSubscriber_tracks_witness :
    (Event.empty.bindMember 1 2 EventFlag.DEFAULT).hasSubscriber
      (_identify 2 1) = true ∧
    (Event.empty.subscribeLambda 9 3).hasSubscriber (_identify 3 0) = true ∧
    (Event.empty.unbindMember 1 2).hasSubscriber (_identify 2 1) = false :=
  c7_hasSubscriber_tracks Event.empty 1 2 9 3 EventFlag.DEFAULT
    List.Pairwise.nil

/-! ### C5: distinct receivers, same member -/

/-- Helper: the identity computation in closed form. -/
theorem identify_closed (c m : Nat) :
    _identify c m = (c * 10 + m) % 2 ^ 64 := by
  rw [_identify, show W64 = 2 ^ 64 from rfl, Nat.mod_mul_mod]
  conv_rhs => rw [Nat.add_mod]

/-- Helper: receivers that differ modulo `2 ^ 63` get distinct identities
for any common member address (the converse of the wraparound collision). -/
theorem identify_ne_of_mod_ne (r1 r2 m : Nat)
    (hmod : r1 % 2 ^ 63 ≠ r2 % 2 ^ 63) :
    _identify r1 m ≠ _identify r2 m := by
  intro heq
  apply hmod
  rw [identify_closed, identify_closed] at heq
  have hmeq : r1 * 10 + m ≡ r2 * 10 + m [MOD 2 ^ 64] := heq
  have h10 : r1 * 10 ≡ r2 * 10 [MOD 2 ^ 64] :=
    Nat.ModEq.add_right_cancel' m hmeq
  have h10' : 2 * (5 * r1) ≡ 2 * (5 * r2) [MOD 2 * 2 ^ 63] := by
    have e1 : 2 * (5 * r1) = r1 * 10 := by ring
    have e2 : 2 * (5 * r2) = r2 * 10 := by ring
    have e3 : 2 * 2 ^ 63 = 2 ^ 64 := by norm_num
    rw [e1, e2, e3]
    exact h10
  have h5 : 5 * r1 ≡ 5 * r2 [MOD 2 ^ 63] :=
    Nat.ModEq.mul_left_cancel' (by norm_num) h10'
  have hco : Nat.gcd (2 ^ 63) 5 = 1 :=
    Nat.Coprime.pow_left 63 (by decide)
  exact Nat.ModEq.cancel_left_of_coprime hco h5

/-- The C5 scenario: two receivers binding the same member on one event. -/
def doubleBindScenario (ev : Event) (m r1 r2 : Nat) : Event :=
  (ev.bindMember m r1 EventFlag.DEFAULT).bindMember m r2 EventFlag.DEFAULT

/-- C5 counterexample: the receiver addresses 0 and `2 ^ 63` are distinct,
yet with member address 0 they derive the same identity (the `* 10`
wraps around modulo `2 ^ 64`).  Binding both pairs on a fresh event leaves
a single subscription, and unbinding the first pair also destroys the
second pair's subscription — the two bindings are neither distinct in
identity nor independently removable, contradicting the claim as stated. -/
theorem c5_counterexample :
    (0 : Nat) ≠ 2 ^ 63 ∧
    _identify 0 0 = _identify (2 ^ 63) 0 ∧
    (doubleBindScenario Event.empty 0 0 (2 ^ 63)).subscribers.length = 1 ∧
    ((doubleBindScenario Event.empty 0 0 (2 ^ 63)).unbindMember 0
      0).hasSubscriber (_identify (2 ^ 63) 0) = false := by
  refine ⟨by norm_num, by decide, by decide, by decide⟩

/-- C5 (amended): for every two receiver addresses that are distinct
modulo `2 ^ 63` — exactly the condition under which the `* 10` identity
mixing cannot collide modulo `2 ^ 64` — and every member address, binding
(m, r1) and (m, r2) on the same event produces two subscriptions with
distinct identities (the table grows by two and both identities are
present), and each can be removed by `unbind` without affecting the other
(the other identity's entry is untouched while the unbound one vanishes). -/
theorem c5_amended_distinct_receivers (ev : Event) (m r1 r2 : Nat)
    (hmod : r1 % 2 ^ 63 ≠ r2 % 2 ^ 63)
    (hu : KeysUnique ev.subscribers)
    (h1 : ev.hasSubscriber (_identify r1 m) = false)
    (h2 : ev.hasSubscriber (_identify r2 m) = false) :
    _identify r1 m ≠ _identify r2 m ∧
    (doubleBindScenario ev m r1 r2).subscribers.length =
      ev.subscribers.length + 2 ∧
    (doubleBindScenario ev m r1 r2).hasSubscriber (_identify r1 m) = true ∧
    (doubleBindScenario ev m r1 r2).hasSubscriber (_identify r2 m) = true ∧
    lookupKey ((doubleBindScenario ev m r1 r2).unbindMember m r1).subscribers
        (_identify r2 m) =
      lookupKey (doubleBindScenario ev m r1 r2).subscribers (_identify r2 m) ∧
    ((doubleBindScenario ev m r1 r2).unbindMember m r1).hasSubscriber
      (_identify r1 m) = false ∧
    lookupKey ((doubleBindScenario ev m r1 r2).unbindMember m r2).subscribers
        (_identify r1 m) =
      lookupKey (doubleBindScenario ev m r1 r2).subscribers (_identify r1 m) ∧
    ((doubleBindScenario ev m r1 r2).unbindMember m r2).hasSubscriber
      (_identify r2 m) = false := by
  have hid := identify_ne_of_mod_ne r1 r2 m hmod
  have h1' : containsKey ev.subscribers (_identify r1 m) = false := h1
  have h2' : containsKey ev.subscribers (_identify r2 m) = false := h2
  have hs1 : ev.bindMember m r1 EventFlag.DEFAULT =
      ⟨ev.subscribers ++ [(_identify r1 m, HandlerV.bound m r1)]⟩ := by
    rw [Event.bindMember, addToList_eq, if_neg (by simp [h1])]
  have hc2 : (ev.bindMember m r1 EventFlag.DEFAULT).hasSubscriber
      (_identify r2 m) = false := by
    rw [hs1, Event.hasSubscriber, containsKey_append, h2']
    simp [containsKey, beq_eq_false_iff_ne, hid]
  have hs2 : doubleBindScenario ev m r1 r2 =
      ⟨ev.subscribers ++ [(_identify r1 m, HandlerV.bound m r1)] ++
        [(_identify r2 m, HandlerV.bound m r2)]⟩ := by
    rw [doubleBindScenario, Event.bindMember, addToList_eq,
      if_neg (by simp [hc2]), hs1]
  have hhas1 : (doubleBindScenario ev m r1 r2).hasSubscriber
      (_identify r1 m) = true := by
    rw [hs2, Event.hasSubscriber, containsKey_append, containsKey_append, h1']
    simp [containsKey]
  have hhas2 : (doubleBindScenario ev m r1 r2).hasSubscriber
      (_identify r2 m) = true := by
    rw [doubleBindScenario, Event.bindMember]
    exact hasSubscriber_addToList_self _ _ _ _
  have hu2 : KeysUnique (doubleBindScenario ev m r1 r2).subscribers := by
    rw [doubleBindScenario, Event.bindMember, Event.bindMember]
    exact keysUnique_addToList _ _ _ _ (keysUnique_addToList _ _ _ _ hu)
  have hrem1 : (doubleBindScenario ev m r1 r2).unbindMember m r1 =
      ⟨mapErase (doubleBindScenario ev m r1 r2).subscribers
        (_identify r1 m)⟩ := by
    rw [Event.unbindMember, Event._removeFromList, if_pos hhas1]
  have hrem2 : (doubleBindScenario ev m r1 r2).unbindMember m r2 =
      ⟨mapErase (doubleBindScenario ev m r1 r2).subscribers
        (_identify r2 m)⟩ := by
    rw [Event.unbindMember, Event._removeFromList, if_pos hhas2]
  refine ⟨hid, ?_, hhas1, hhas2, ?_, ?_, ?_, ?_⟩
  · rw [hs2]
    simp
  · rw [hrem1]
    exact lookupKey_mapErase_of_ne _ _ _ (Ne.symm hid)
  · rw [hrem1, Event.hasSubscriber]
    exact containsKey_mapErase_self _ _ hu2
  · rw [hrem2]
    exact lookupKey_mapErase_of_ne _ _ _ hid
  · rw [hrem2, Event.hasSubscriber]
    exact containsKey_mapErase_self _ _ hu2

theorem c5_amended_distinct_receivers_witness :
    _identify 1 3 ≠ _identify 2 3 ∧
    (doubleBindScenario Event.empty 3 1 2).subscribers.length =
      Event.empty.subscribers.length + 2 ∧
    (doubleBindScenario Event.empty 3 1 2).hasSubscriber (_identify 1 3) =
      true ∧
    (doubleBindScenario Event.empty 3 1 2).hasSubscriber (_identify 2 3) =
      true ∧
    lookupKey ((doubleBindScenario Event.empty 3 1 2).unbindMember 3
        1).subscribers (_identify 2 3) =
      lookupKey (doubleBindScenario Event.empty 3 1 2).subscribers
        (_identify 2 3) ∧
    ((doubleBindScenario Event.empty 3 1 2).unbindMember 3 1).hasSubscriber
      (_identify 1 3) = false ∧
    lookupKey ((doubleBindScenario Event.empty 3 1 2).unbindMember 3
        2).subscribers (_identify 1 3) =
      lookupKey (doubleBindScenario Event.empty 3 1 2).subscribers
        (_identify 1 3) ∧
    ((doubleBindScenario Event.empty 3 1 2).unbindMember 3 2).hasSubscriber
      (_identify 2 3) = false :=
  c5_amended_distinct_receivers Event.empty 3 1 2 (by decide)
    List.Pairwise.nil (by decide) (by decide)

/-! ### C1: bind, arbitrary interleaving, fire -/

/-- Every entry holding a bound member call sits at the key its pair
derives — true of every state reachable through the API, since `bind` is
the only operation that stores bound handlers. -/
def BoundKeysMatch (s : List (Nat × HandlerV)) : Prop :=
  ∀ p ∈ s, ∀ m r, p.2 = HandlerV.bound m r → p.1 = _identify r m

theorem fire_state_eq (ev : Event) (e : List Nat) : (ev.fire e).1 = ev := by
  rw [Event.fire]
  exact fireAux_fst ev ev.subscribers e []

theorem keysUnique_stepState (ev : Event) (op : Op)
    (hu : KeysUnique ev.subscribers) :
    KeysUnique (stepState ev op).subscribers := by
  cases op with
  | bindOp m r f =>
    rw [stepState, Event.bindMember]
    exact keysUnique_addToList _ _ _ _ hu
  | unbindOp m r =>
    rw [stepState, Event.unbindMember]
    exact keysUnique_removeFromList _ _ hu
  | subOp c s =>
    rw [stepState, Event.subscribeLambda]
    exact keysUnique_addToList _ _ _ _ hu
  | fireOp e =>
    rw [stepState, fire_state_eq]
    exact hu

theorem boundKeysMatch_addToList (ev : Event) (a : Nat) (h : HandlerV)
    (f : EventFlag) (hb : BoundKeysMatch ev.subscribers)
    (hnew : ∀ m r, h = HandlerV.bound m r → a = _identify r m) :
    BoundKeysMatch (ev._addToList a h f).subscribers := by
  rw [addToList_eq]
  by_cases hc : ev.hasSubscriber a = true
  · rw [if_pos hc]
    exact hb
  · rw [if_neg hc]
    intro p hp m r hpr
    rcases List.mem_append.mp hp with hmem | hmem
    · exact hb p hmem m r hpr
    · rcases List.mem_singleton.mp hmem with rfl
      exact hnew m r hpr

theorem boundKeysMatch_stepState (ev : Event) (op : Op)
    (hb : BoundKeysMatch ev.subscribers) :
    BoundKeysMatch (stepState ev op).subscribers := by
  cases op with
  | bindOp m r f =>
    rw [stepState, Event.bindMember]
    refine boundKeysMatch_addToList _ _ _ _ hb ?_
    intro m' r' hval
    rcases HandlerV.bound.injEq m r m' r' ▸ hval with ⟨rfl, rfl⟩
    rfl
  | unbindOp m r =>
    rw [stepState, Event.unbindMember, Event._removeFromList]
    by_cases hc : ev.hasSubscriber (_identify r m) = true
    · rw [if_pos hc]
      intro p hp
      exact hb p ((mapErase_sublist _ _).mem hp)
    · rw [if_neg hc]
      exact hb
  | subOp c s =>
    rw [stepState, Event.subscribeLambda]
    refine boundKeysMatch_addToList _ _ _ _ hb ?_
    intro m' r' hval
    exact absurd hval (by simp)
  | fireOp e =>
    rw [stepState, fire_state_eq]
    exact hb

theorem keysUnique_runOps (ev : Event) (ops : List Op)
    (hu : KeysUnique ev.subscribers) :
    KeysUnique (runOps ev ops).subscribers := by
  induction ops generalizing ev with
  | nil => exact hu
  | cons op rest ih =>
    rw [runOps, List.foldl_cons]
    exact ih (stepState ev op) (keysUnique_stepState ev op hu)

theorem boundKeysMatch_runOps (ev : Event) (ops : List Op)
    (hb : BoundKeysMatch ev.subscribers) :
    BoundKeysMatch (runOps ev ops).subscribers := by
  induction ops generalizing ev with
  | nil => exact hb
  | cons op rest ih =>
    rw [runOps, List.foldl_cons]
    exact ih (stepState ev op) (boundKeysMatch_stepState ev op hb)

theorem lookupKey_stepState (ev : Event) (op : Op) (a : Nat) (h : HandlerV)
    (hl : lookupKey ev.subscribers a = some h)
    (hop : ∀ m r, op = Op.unbindOp m r → _identify r m ≠ a) :
    lookupKey (stepState ev op).subscribers a = some h := by
  cases op with
  | bindOp m r f =>
    rw [stepState, Event.bindMember, addToList_eq]
    by_cases hc : ev.hasSubscriber (_identify r m) = true
    · rw [if_pos hc]
      exact hl
    · rw [if_neg hc]
      exact lookupKey_append_left _ _ _ _ hl
  | unbindOp m r =>
    rw [stepState, Event.unbindMember, Event._removeFromList]
    by_cases hc : ev.hasSubscriber (_identify r m) = true
    · rw [if_pos hc]
      rw [lookupKey_mapErase_of_ne _ _ _ (Ne.symm (hop m r rfl))]
      exact hl
    · rw [if_neg hc]
      exact hl
  | subOp c s =>
    rw [stepState, Event.subscribeLambda, addToList_eq]
    by_cases hc : ev.hasSubscriber (_identify s 0) = true
    · rw [if_pos hc]
      exact hl
    · rw [if_neg hc]
      exact lookupKey_append_left _ _ _ _ hl
  | fireOp e =>
    rw [stepState, fire_state_eq]
    exact hl

theorem lookupKey_runOps (ev : Event) (ops : List Op) (a : Nat)
    (h : HandlerV) (hl : lookupKey ev.subscribers a = some h)
    (hops : ∀ op ∈ ops, ∀ m r, op = Op.unbindOp m r → _identify r m ≠ a) :
    lookupKey (runOps ev ops).subscribers a = some h := by
  induction ops generalizing ev with
  | nil => exact hl
  | cons op rest ih =>
    rw [runOps, List.foldl_cons]
    refine ih (stepState ev op)
      (lookupKey_stepState ev op a h hl (hops op (List.mem_cons_self op rest)))
      ?_
    intro op' hop'
    exact hops op' (List.mem_cons_of_mem op hop')

theorem lookupKey_bindMember (ev : Event) (member inst : Nat) (f : EventFlag)
    (hpre : lookupKey ev.subscribers (_identify inst member) = none ∨
      lookupKey ev.subscribers (_identify inst member) =
        some (HandlerV.bound member inst)) :
    lookupKey (ev.bindMember member inst f).subscribers
      (_identify inst member) = some (HandlerV.bound member inst) := by
  rcases hpre with hn | hs
  · have hc : ev.hasSubscriber (_identify inst member) = false := by
      rw [hasSubscriber_isSome, hn]
      rfl
    rw [Event.bindMember, addToList_eq, if_neg (by simp [hc])]
    show lookupKey (ev.subscribers ++ [(_identify inst member,
      HandlerV.bound member inst)]) (_identify inst member) = _
    rw [lookupKey_append_of_none _ _ _ hn, lookupKey]
    simp
  · have hc : ev.hasSubscriber (_identify inst member) = true := by
      rw [hasSubscriber_isSome, hs]
      rfl
    rw [Event.bindMember, addToList_eq, if_pos hc]
    exact hs

theorem countBound_eq_one (s : List (Nat × HandlerV)) (m r : Nat)
    (hu : KeysUnique s) (hb : BoundKeysMatch s)
    (hl : lookupKey s (_identify r m) = some (HandlerV.bound m r)) :
    s.countP (fun p => p.2 == HandlerV.bound m r) = 1 := by
  induction s with
  | nil => simp [lookupKey] at hl
  | cons p rest ih =>
    rcases List.pairwise_cons.mp hu with ⟨hhead, hutail⟩
    have hbtail : BoundKeysMatch rest :=
      fun q hq => hb q (List.mem_cons_of_mem p hq)
    by_cases hp : p.1 = _identify r m
    · rw [lookupKey, if_pos (by simpa using hp)] at hl
      have hp2 : p.2 = HandlerV.bound m r := by
        injection hl
      rw [List.countP_cons_of_pos _ _ (by simp [hp2])]
      have hzero : rest.countP (fun p => p.2 == HandlerV.bound m r) = 0 := by
        rw [List.countP_eq_zero]
        intro q hq hq2
        have hq2' : q.2 = HandlerV.bound m r := by simpa using hq2
        have hqk : q.1 = _identify r m :=
          hb q (List.mem_cons_of_mem p hq) m r hq2'
        exact hhead q hq (hp.trans hqk.symm)
      rw [hzero]
    · rw [lookupKey, if_neg (by simpa using hp)] at hl
      have hp2 : p.2 ≠ HandlerV.bound m r := by
        intro hcontra
        exact hp (hb p (List.mem_cons_self p rest) m r hcontra)
      rw [List.countP_cons_of_neg _ _ (by simp [hp2])]
      exact ih hutail hbtail hl

theorem countTrace_eq_countBound (ev : Event) (e : List Nat) (m r : Nat) :
    (ev.fireTrace e).countP
        (fun q => q.1 == HandlerV.bound m r && q.2 == e) =
      ev.subscribers.countP (fun p => p.2 == HandlerV.bound m r) := by
  rw [fireTrace_eq_map, List.countP_map]
  congr 1
  funext p
  show ((p.2, e).1 == HandlerV.bound m r && (p.2, e).2 == e) =
    (p.2 == HandlerV.bound m r)
  simp

/-- C1 (amended): starting from a freshly constructed event, run any
operation sequence `ops0` that leaves the derived identity of
(member, inst) either unregistered or already holding that very pair's
handler; then `bind(member, inst)` under any flag; then any operation
sequence `ops1` containing no `unbind` whose pair derives the same
identity.  Every subsequent `fire(e)` invokes the bound member exactly
once, and every invocation performed by that `fire` passes exactly the
argument tuple `e`. -/
theorem c1_bind_fire_once (ops0 ops1 : List Op) (member inst : Nat)
    (f : EventFlag) (e : List Nat)
    (hpre : lookupKey (runOps Event.empty ops0).subscribers
        (_identify inst member) = none ∨
      lookupKey (runOps Event.empty ops0).subscribers
        (_identify inst member) = some (HandlerV.bound member inst))
    (hops1 : ∀ op ∈ ops1, ∀ m r, op = Op.unbindOp m r →
      _identify r m ≠ _identify inst member) :
    (Event.fireTrace (runOps ((runOps Event.empty ops0).bindMember member
        inst f) ops1) e).countP
      (fun q => q.1 == HandlerV.bound member inst && q.2 == e) = 1 ∧
    ∀ q ∈ Event.fireTrace (runOps ((runOps Event.empty ops0).bindMember
        member inst f) ops1) e, q.2 = e := by
  have hu0 : KeysUnique (runOps Event.empty ops0).subscribers :=
    keysUnique_runOps Event.empty ops0 List.Pairwise.nil
  have hb0 : BoundKeysMatch (runOps Event.empty ops0).subscribers :=
    boundKeysMatch_runOps Event.empty ops0
      (fun p hp => absurd hp (List.not_mem_nil p))
  have hu1 : KeysUnique ((runOps Event.empty ops0).bindMember member inst
      f).subscribers := by
    rw [Event.bindMember]
    exact keysUnique_addToList _ _ _ _ hu0
  have hb1 : BoundKeysMatch ((runOps Event.empty ops0).bindMember member
      inst f).subscribers := by
    rw [Event.bindMember]
    refine boundKeysMatch_addToList _ _ _ _ hb0 ?_
    intro m' r' hval
    rcases HandlerV.bound.injEq member inst m' r' ▸ hval with ⟨rfl, rfl⟩
    rfl
  have hl1 := lookupKey_bindMember (runOps Event.empty ops0) member inst
    f hpre
  have hu2 := keysUnique_runOps _ ops1 hu1
  have hb2 := boundKeysMatch_runOps _ ops1 hb1
  have hl2 := lookupKey_runOps _ ops1 _ _ hl1 hops1
  constructor
  · rw [countTrace_eq_countBound]
    exact countBound_eq_one _ member inst hu2 hb2 hl2
  · intro q hq
    rw [fireTrace_eq_map] at hq
    rcases List.mem_map.mp hq with ⟨p, hp, rfl⟩
    rfl

theorem c1_bind_fire_once_witness :
    (Event.fireTrace (runOps ((runOps Event.empty []).bindMember 1 2
        EventFlag.DEFAULT) []) [7]).countP
      (fun q => q.1 == HandlerV.bound 1 2 && q.2 == [7]) = 1 ∧
    ∀ q ∈ Event.fireTrace (runOps ((runOps Event.empty []).bindMember 1 2
        EventFlag.DEFAULT) []) [7], q.2 = [7] :=
  c1_bind_fire_once [] [] 1 2 EventFlag.DEFAULT [7] (Or.inl rfl)
    (fun op hop => absurd hop (List.not_mem_nil op))

/-- C1 counterexample: bind member address 0 on receiver address 1
(derived identity 10); then unbind the different pair of member address 10
on receiver address 0 — not an `unbind` of (0, 1), yet its derived
identity is also 10, so it removes the subscription.  The subsequent
`fire([5])` invokes the bound member zero times, not exactly once,
falsifying the claim as stated. -/
theorem c1_counterexample :
    Op.unbindOp 10 0 ≠ Op.unbindOp 0 1 ∧
    _identify 0 10 = _identify 1 0 ∧
    (Event.fireTrace (runOps ((runOps Event.empty []).bindMember 0 1
        EventFlag.DEFAULT) [Op.unbindOp 10 0]) [5]).countP
      (fun q => q.1 == HandlerV.bound 0 1 && q.2 == [5]) = 0 :=
  ⟨by decide, by decide, by decide⟩
